import Mathlib

/-!
# Verification of the Caso-3-PIH pump-design core

Shallow embedding, over exact rationals `ℚ`, of the two components the
specification singles out:

* **CurveModel** — the piecewise-linear pump-curve evaluator with linear
  edge extrapolation, `build_interp` in `src/code/master.py` (lines 84-107),
  together with the two sibling evaluators `build_interp` in
  `src/resultados/final.py` (lines 62-68, clamping `np.interp`) and
  `interpolate` in `src/resultados/veremos.py` (lines 34-38, explicit clamp).

* **ArrangementSearch** — the brute-force enumeration of parallel-pump
  counts `N_par = 1..9` in `src/code/master.py` (lines 150-191), with
  `N_st = math.ceil(H_total / Hb)`, the total-power ranking done by
  `df_candidatos.sort_values("P_total_kW")`, and the (unreachable)
  `RuntimeError` branch guarding an empty candidate list.

* the ASME B31.4 wall-thickness utilisation computation of
  `src/code/estanques.py` (lines 58-91).

Python floats are modelled as rationals; Python exceptions (the
`ZeroDivisionError` in `math.ceil(H_total / Hb)` when a per-pump head is
exactly zero, and the `ValueError` of `q.min()` on an empty array) are
modelled with `Option`.
-/

namespace PIH

/-! ## CurveModel: the interpolators -/

/-- Value at `q` of the straight line through `(x0, y0)` and `(x1, y1)`:
`y0 + (y1 - y0)/(x1 - x0) * (q - x0)`.  This is the slope formula used by
all three Python evaluators. -/
def segEval (x0 y0 x1 y1 q : ℚ) : ℚ := y0 + (y1 - y0) / (x1 - x0) * (q - x0)

/-- `np.interp q xs ys` for a strictly increasing abscissa list, as used by
all three evaluators: clamp to the first value left of the range, clamp to
the last value right of the range, straight segment between consecutive
samples inside. -/
def npInterp : List (ℚ × ℚ) → ℚ → ℚ
  | [], _ => 0
  | [p], _ => p.2
  | a :: b :: l, q =>
    if q ≤ a.1 then a.2
    else if q ≤ b.1 then segEval a.1 a.2 b.1 b.2 q
    else npInterp (b :: l) q

/-- `sorted(points, key=lambda x: x[0])` — stable sort by flow (Python's
`sorted` is a stable mergesort; `List.insertionSort` is likewise stable and
produces the same list for a by-first-component key). -/
def sortPts (points : List (ℚ × ℚ)) : List (ℚ × ℚ) :=
  List.insertionSort (fun a b => a.1 ≤ b.1) points

/-- The closure `f` returned by `build_interp` in `src/code/master.py`
(lines 93-105), acting on the already sorted array:
`q[0], q[1], q[-1], q[-2]` index accesses become `getD` on the list
(`n - 1`/`n - 2` are the Python negative indices).  At or below the first
sample it extrapolates with the slope of the first segment, at or above the
last sample with the slope of the last segment, and uses `np.interp`
inside. -/
def masterEval (pts : List (ℚ × ℚ)) (qx : ℚ) : ℚ :=
  let n := pts.length
  let q : ℕ → ℚ := fun i => (pts.getD i (0, 0)).1
  let y : ℕ → ℚ := fun i => (pts.getD i (0, 0)).2
  if qx ≤ q 0 then
    y 0 + (y 1 - y 0) / (q 1 - q 0) * (qx - q 0)
  else if q (n - 1) ≤ qx then
    y (n - 1) + (y (n - 1) - y (n - 2)) / (q (n - 1) - q (n - 2)) * (qx - q (n - 1))
  else npInterp pts qx

/-- `estimate` of the CurveModel built by `build_interp` in
`src/code/master.py`: sort the points, then evaluate `f`. -/
def estimate (points : List (ℚ × ℚ)) (q : ℚ) : ℚ := masterEval (sortPts points) q

/-- The construction phase of `build_interp` in `src/code/master.py`
(lines 84-107).  The Python body performs no input validation: it sorts,
builds the arrays and returns `f, float(q.min()), float(q.max())`.  The
only way construction itself can fail is `q.min()` on an empty array
(a `ValueError`); a single point or duplicated flows are accepted. -/
def build_interp (points : List (ℚ × ℚ)) : Option ((ℚ → ℚ) × ℚ × ℚ) :=
  match points with
  | [] => none
  | _ =>
    some (masterEval (sortPts points),
          ((sortPts points).getD 0 (0, 0)).1,
          ((sortPts points).getD ((sortPts points).length - 1) (0, 0)).1)

/-- `interpolate` in `src/resultados/veremos.py` (lines 34-38): clamp to the
first value strictly below `xs[0]`, clamp to the last value strictly above
`xs[-1]`, `np.interp` otherwise.  No sorting is performed. -/
def interpolate (xy : List (ℚ × ℚ)) (q : ℚ) : ℚ :=
  if q < (xy.getD 0 (0, 0)).1 then (xy.getD 0 (0, 0)).2
  else if (xy.getD (xy.length - 1) (0, 0)).1 < q then (xy.getD (xy.length - 1) (0, 0)).2
  else npInterp xy q

/-- The evaluator `f` of `build_interp` in `src/resultados/final.py`
(lines 62-68): sort (Python sorts pairs lexicographically, which agrees
with the by-flow key sort on strictly increasing flows), then plain
clamping `np.interp`. -/
def finalEstimate (pts : List (ℚ × ℚ)) (q : ℚ) : ℚ := npInterp (sortPts pts) q

/-- Strictly increasing flows, the well-formedness invariant the spec
states for curve samples. -/
def FlowsInc (pts : List (ℚ × ℚ)) : Prop :=
  pts.Pairwise (fun u v : ℚ × ℚ => u.1 < v.1)

/-! ## Helper lemmas about the evaluators -/

theorem sortPts_eq_self {pts : List (ℚ × ℚ)} (h : FlowsInc pts) : sortPts pts = pts :=
  List.Sorted.insertionSort_eq (h.imp le_of_lt)

theorem estimate_eq_masterEval {pts : List (ℚ × ℚ)} (h : FlowsInc pts) (q : ℚ) :
    estimate pts q = masterEval pts q := by
  rw [estimate, sortPts_eq_self h]

theorem finalEstimate_eq_npInterp {pts : List (ℚ × ℚ)} (h : FlowsInc pts) (q : ℚ) :
    finalEstimate pts q = npInterp pts q := by
  rw [finalEstimate, sortPts_eq_self h]

/-- Inside a bracketing pair of consecutive samples, `npInterp` is the
segment through that pair. -/
theorem npInterp_bracket (a b : ℚ × ℚ) (l2 : List (ℚ × ℚ)) (q : ℚ)
    (hq1 : a.1 < q) (hq2 : q ≤ b.1) :
    ∀ l1 : List (ℚ × ℚ), FlowsInc (l1 ++ a :: b :: l2) →
      npInterp (l1 ++ a :: b :: l2) q = segEval a.1 a.2 b.1 b.2 q := by
  intro l1
  induction l1 with
  | nil =>
    intro _
    simp only [List.nil_append, npInterp]
    rw [if_neg (not_le.mpr hq1), if_pos hq2]
  | cons c l1' ih =>
    intro hp
    have hmema : a ∈ l1' ++ a :: b :: l2 := by simp
    have hca : c.1 < a.1 := (List.pairwise_cons.mp hp).1 a hmema
    have hcq : ¬ q ≤ c.1 := not_le.mpr (hca.trans hq1)
    have htail : FlowsInc (l1' ++ a :: b :: l2) := (List.pairwise_cons.mp hp).2
    cases l1' with
    | nil =>
      simp only [List.nil_append, List.cons_append, npInterp] at *
      rw [if_neg hcq, if_neg (not_le.mpr hq1)]
      exact ih htail
    | cons d l1'' =>
      have hmema' : a ∈ l1'' ++ a :: b :: l2 := by simp
      have hda : d.1 < a.1 := (List.pairwise_cons.mp htail).1 a hmema'
      have hdq : ¬ q ≤ d.1 := not_le.mpr (hda.trans hq1)
      simp only [List.cons_append, npInterp] at *
      rw [if_neg hcq, if_neg hdq]
      exact ih htail

theorem getD_append_right_two (u v d : ℚ × ℚ) :
    ∀ l : List (ℚ × ℚ),
      (l ++ [u, v]).getD ((l ++ [u, v]).length - 1) d = v ∧
      (l ++ [u, v]).getD ((l ++ [u, v]).length - 2) d = u := by
  intro l
  induction l with
  | nil => exact ⟨rfl, rfl⟩
  | cons c l' ih =>
    simp only [List.cons_append]
    constructor
    · have h1 : (c :: (l' ++ [u, v])).length - 1 = ((l' ++ [u, v]).length - 1) + 1 := by
        simp only [List.length_cons, List.length_append]
        omega
      rw [h1, List.getD_cons_succ]
      exact ih.1
    · have h1 : (c :: (l' ++ [u, v])).length - 2 = ((l' ++ [u, v]).length - 2) + 1 := by
        simp only [List.length_cons, List.length_append]
        omega
      rw [h1, List.getD_cons_succ]
      exact ih.2

theorem getD_append_right_one (v d : ℚ × ℚ) :
    ∀ l : List (ℚ × ℚ), (l ++ [v]).getD ((l ++ [v]).length - 1) d = v := by
  intro l
  induction l with
  | nil => rfl
  | cons c l' ih =>
    simp only [List.cons_append]
    have h1 : (c :: (l' ++ [v])).length - 1 = ((l' ++ [v]).length - 1) + 1 := by
      simp only [List.length_cons, List.length_append]
      omega
    rw [h1, List.getD_cons_succ]
    exact ih

theorem flowsInc_head_lt (l1 l2 : List (ℚ × ℚ)) (a b : ℚ × ℚ) (q : ℚ)
    (hinc : FlowsInc (l1 ++ a :: b :: l2)) (hlo : a.1 < q) :
    ((l1 ++ a :: b :: l2).getD 0 (0, 0)).1 < q := by
  cases l1 with
  | nil => simpa using hlo
  | cons c l1' =>
    simp only [List.cons_append, List.getD_cons_zero]
    simp only [List.cons_append] at hinc
    have hmema : a ∈ l1' ++ a :: b :: l2 := by simp
    exact ((List.pairwise_cons.mp hinc).1 a hmema).trans hlo

theorem flowsInc_lt_last (l1 l2 : List (ℚ × ℚ)) (a b : ℚ × ℚ) (q : ℚ)
    (hinc : FlowsInc (l1 ++ a :: b :: l2)) (hhi : q < b.1) :
    q < (((l1 ++ a :: b :: l2)).getD ((l1 ++ a :: b :: l2).length - 1) (0, 0)).1 := by
  rcases l2.eq_nil_or_concat with rfl | ⟨l2', w, rfl⟩
  · rw [(getD_append_right_two a b (0, 0) l1).1]
    exact hhi
  · simp only [List.concat_eq_append] at hinc ⊢
    have hassoc : l1 ++ a :: b :: (l2' ++ [w]) = (l1 ++ a :: b :: l2') ++ [w] := by
      simp
    rw [hassoc, getD_append_right_one w (0, 0) (l1 ++ a :: b :: l2')]
    have hs : List.Sublist [b, w] (l1 ++ a :: b :: (l2' ++ [w])) := by
      have h1 : List.Sublist [b, w] (b :: (l2' ++ [w])) :=
        List.cons_sublist_cons.mpr (List.sublist_append_right l2' [w])
      have h2 : List.Sublist (b :: (l2' ++ [w])) (a :: b :: (l2' ++ [w])) :=
        List.sublist_cons_self _ _
      exact (h1.trans h2).trans (List.sublist_append_right l1 _)
    have hbw : b.1 < w.1 := (List.pairwise_cons.mp (hinc.sublist hs)).1 w (by simp)
    exact hhi.trans hbw

/-- Strictly inside a bracket of consecutive samples, the master evaluator
is the segment through the bracketing pair. -/
theorem masterEval_bracket (l1 l2 : List (ℚ × ℚ)) (a b : ℚ × ℚ) (q : ℚ)
    (hinc : FlowsInc (l1 ++ a :: b :: l2)) (hlo : a.1 < q) (hhi : q < b.1) :
    masterEval (l1 ++ a :: b :: l2) q = segEval a.1 a.2 b.1 b.2 q := by
  have hg1 : ¬ q ≤ ((l1 ++ a :: b :: l2).getD 0 (0, 0)).1 :=
    not_le.mpr (flowsInc_head_lt l1 l2 a b q hinc hlo)
  have hg2 : ¬ ((l1 ++ a :: b :: l2).getD ((l1 ++ a :: b :: l2).length - 1) (0, 0)).1 ≤ q :=
    not_le.mpr (flowsInc_lt_last l1 l2 a b q hinc hhi)
  simp only [masterEval]
  rw [if_neg hg1, if_neg hg2]
  exact npInterp_bracket a b l2 q hlo (le_of_lt hhi) l1 hinc

/-- **C2.** For every curve model built from at least two samples with
strictly increasing flows, a query at or below the minimum sample flow
returns `first value + slope of the first segment * (query - first flow)`,
and symmetrically a query at or above the maximum sample flow uses the
slope of the last segment (`src/code/master.py` lines 93-105). -/
theorem estimate_edge_extrapolation (pts rest l2 : List (ℚ × ℚ)) (p0 p1 pa pb : ℚ × ℚ)
    (q : ℚ) (h1 : pts = p0 :: p1 :: rest) (h2 : pts = l2 ++ [pa, pb])
    (hinc : FlowsInc pts) :
    (q ≤ p0.1 → estimate pts q = p0.2 + (p1.2 - p0.2) / (p1.1 - p0.1) * (q - p0.1)) ∧
    (pb.1 ≤ q → estimate pts q = pb.2 + (pb.2 - pa.2) / (pb.1 - pa.1) * (q - pb.1)) := by
  have e0 : pts.getD 0 (0, 0) = p0 := by rw [h1]; rfl
  have e01 : pts.getD 1 (0, 0) = p1 := by rw [h1]; rfl
  have elast := getD_append_right_two pa pb (0, 0) l2
  have e1 : pts.getD (pts.length - 1) (0, 0) = pb := by rw [h2]; exact elast.1
  have e2 : pts.getD (pts.length - 2) (0, 0) = pa := by rw [h2]; exact elast.2
  rw [estimate_eq_masterEval hinc]
  constructor
  · intro hq
    simp only [masterEval]
    rw [e0, e01, if_pos hq]
  · intro hq
    have hp0pb : p0.1 < pb.1 := by
      cases l2 with
      | nil =>
        rw [h2] at h1
        have hpa : pa = p0 := by
          have := h1.symm
          simp only [List.nil_append, List.cons.injEq] at this
          exact this.1.symm
        have hpairs : FlowsInc [pa, pb] := by rw [← List.nil_append [pa, pb], ← h2]; exact hinc
        rw [← hpa]
        exact (List.pairwise_cons.mp hpairs).1 pb (by simp)
      | cons c l2' =>
        have hp0c : p0 = c := by
          have := h2.symm.trans h1
          simp only [List.cons_append, List.cons.injEq] at this
          exact this.1.symm
        have hinc' : FlowsInc (c :: (l2' ++ [pa, pb])) := by
          rw [← List.cons_append, ← h2]; exact hinc
        have hmem : pb ∈ l2' ++ [pa, pb] := by simp
        rw [hp0c]
        exact (List.pairwise_cons.mp hinc').1 pb hmem
    have hg1 : ¬ q ≤ (pts.getD 0 (0, 0)).1 := by
      rw [e0]; exact not_le.mpr (hp0pb.trans_le hq)
    simp only [masterEval]
    rw [e0, e1, e2, if_neg (by rw [e0] at hg1; exact hg1), if_pos hq]

/-- C2 witness: the spec's scenario — curve points `(40,970) … (280,620)`,
query flow `10` (below the minimum `40`) — returns exactly `977.5` by the
slope of the first segment. -/
theorem estimate_edge_extrapolation_at_10 :
    estimate ([(40, 970), (80, 960), (160, 890), (200, 840), (280, 620)] : List (ℚ × ℚ))
      10 = 977.5 := by
  have h := (estimate_edge_extrapolation
      ([(40, 970), (80, 960), (160, 890), (200, 840), (280, 620)] : List (ℚ × ℚ))
      ([(160, 890), (200, 840), (280, 620)] : List (ℚ × ℚ))
      ([(40, 970), (80, 960), (160, 890)] : List (ℚ × ℚ))
      (40, 970) (80, 960) (200, 840) (280, 620) 10 rfl rfl
      (by norm_num [FlowsInc, List.pairwise_cons])).1 (by norm_num)
  rw [h]
  norm_num

/-- **C4 counterexample.** `build_interp` in `src/code/master.py` performs no
construction-time validation: construction succeeds on a single sample
point, and also on two points sharing the same flow value — no
`InvalidInput` failure occurs at construction. -/
theorem build_interp_no_validation_cex :
    (build_interp [((40 : ℚ), (970 : ℚ))]).isSome = true ∧
    (build_interp [((40 : ℚ), (970 : ℚ)), (40, 980)]).isSome = true :=
  ⟨rfl, rfl⟩

/-- **C4 (amended).** Construction of the curve model fails exactly when the
point list is empty (Python's `q.min()` raises on an empty array); neither
the two-point minimum nor duplicate flows are checked at construction. -/
theorem build_interp_some_iff (points : List (ℚ × ℚ)) :
    (build_interp points).isSome = true ↔ points ≠ [] := by
  cases points <;> simp [build_interp]

theorem flowsInc_adj (l1 l2 : List (ℚ × ℚ)) (a b : ℚ × ℚ)
    (h : FlowsInc (l1 ++ a :: b :: l2)) : a.1 < b.1 := by
  have hs : List.Sublist [a, b] (l1 ++ a :: b :: l2) := by
    have h1 : List.Sublist [a, b] (a :: b :: l2) :=
      List.cons_sublist_cons.mpr (List.cons_sublist_cons.mpr (List.nil_sublist l2))
    exact h1.trans (List.sublist_append_right l1 _)
  exact (List.pairwise_cons.mp (h.sublist hs)).1 b (by simp)

/-- **C6.** For every curve model built from at least two sample points with
strictly increasing flows, evaluating `estimate` at an original sample's
flow returns that sample's value exactly. -/
theorem estimate_at_sample (pts rest : List (ℚ × ℚ)) (p0 p1 : ℚ × ℚ) (x y : ℚ)
    (h1 : pts = p0 :: p1 :: rest) (hinc : FlowsInc pts) (hmem : (x, y) ∈ pts) :
    estimate pts x = y := by
  rw [estimate_eq_masterEval hinc]
  obtain ⟨s, t, hst⟩ := List.append_of_mem hmem
  rcases s.eq_nil_or_concat with rfl | ⟨s', aa, hs⟩
  · have e0 : pts.getD 0 (0, 0) = (x, y) := by rw [hst]; rfl
    simp only [masterEval]
    rw [e0, if_pos (le_of_eq rfl)]
    simp
  · rw [hs] at hst
    simp only [List.concat_eq_append] at hst
    rw [List.append_assoc, List.singleton_append] at hst
    have ha : aa.1 < x := by
      have h := flowsInc_adj s' t aa (x, y) (by rw [← hst]; exact hinc)
      simpa using h
    cases t with
    | nil =>
      have e1 : pts.getD (pts.length - 1) (0, 0) = (x, y) := by
        rw [hst]; exact (getD_append_right_two aa (x, y) (0, 0) s').1
      have hg1 : ¬ x ≤ (pts.getD 0 (0, 0)).1 := by
        rw [hst]
        exact not_le.mpr
          (flowsInc_head_lt s' [] aa (x, y) x (by rw [← hst]; exact hinc) ha)
      simp only [masterEval]
      rw [e1, if_neg hg1, if_pos (le_of_eq rfl)]
      simp
    | cons t0 t' =>
      have hpts' : pts = (s' ++ [aa]) ++ (x, y) :: t0 :: t' := by rw [hst]; simp
      have hxt0 : x < t0.1 := by
        have h := flowsInc_adj (s' ++ [aa]) t' (x, y) t0 (by rw [← hpts']; exact hinc)
        simpa using h
      have hg1 : ¬ x ≤ (pts.getD 0 (0, 0)).1 := by
        rw [hst]
        exact not_le.mpr
          (flowsInc_head_lt s' (t0 :: t') aa (x, y) x (by rw [← hst]; exact hinc) ha)
      have hg2 : ¬ (pts.getD (pts.length - 1) (0, 0)).1 ≤ x := by
        rw [hpts']
        exact not_le.mpr
          (flowsInc_lt_last (s' ++ [aa]) t' (x, y) t0 x (by rw [← hpts']; exact hinc) hxt0)
      simp only [masterEval]
      rw [if_neg hg1, if_neg hg2, hst]
      rw [npInterp_bracket aa (x, y) (t0 :: t') x ha (le_of_eq rfl) s'
        (by rw [← hst]; exact hinc)]
      show aa.2 + (y - aa.2) / (x - aa.1) * (x - aa.1) = y
      rw [div_mul_cancel₀ _ (sub_pos.mpr ha).ne']
      ring

/-- C6 witness: for the head curve points, `estimate` at the sample flow 160
returns exactly the sample value 890. -/
theorem estimate_at_sample_example :
    estimate ([(40, 970), (80, 960), (160, 890), (200, 840), (280, 620)] : List (ℚ × ℚ))
      160 = 890 :=
  estimate_at_sample _ ([(160, 890), (200, 840), (280, 620)] : List (ℚ × ℚ))
    (40, 970) (80, 960) 160 890 rfl (by norm_num [FlowsInc, List.pairwise_cons])
    (by norm_num)

theorem segEval_bounds (x0 y0 x1 y1 r : ℚ) (hx : x0 < x1) (h1 : x0 ≤ r) (h2 : r ≤ x1) :
    min y0 y1 ≤ segEval x0 y0 x1 y1 r ∧ segEval x0 y0 x1 y1 r ≤ max y0 y1 := by
  have hd : (0:ℚ) < x1 - x0 := sub_pos.mpr hx
  have hs : (y1 - y0) / (x1 - x0) * (x1 - x0) = y1 - y0 := div_mul_cancel₀ _ hd.ne'
  rcases le_total y0 y1 with hle | hle
  · have hsge : 0 ≤ (y1 - y0) / (x1 - x0) := div_nonneg (by linarith) hd.le
    have hA : 0 ≤ (y1 - y0) / (x1 - x0) * (r - x0) := mul_nonneg hsge (by linarith)
    have hB : (y1 - y0) / (x1 - x0) * (r - x0) ≤ (y1 - y0) / (x1 - x0) * (x1 - x0) :=
      mul_le_mul_of_nonneg_left (by linarith) hsge
    rw [hs] at hB
    rw [min_eq_left hle, max_eq_right hle]
    unfold segEval
    constructor <;> linarith
  · have hsle : (y1 - y0) / (x1 - x0) ≤ 0 :=
      div_nonpos_iff.mpr (Or.inr ⟨by linarith, hd.le⟩)
    have hA : (y1 - y0) / (x1 - x0) * (r - x0) ≤ 0 :=
      mul_nonpos_iff.mpr (Or.inr ⟨hsle, by linarith⟩)
    have hB : (y1 - y0) / (x1 - x0) * (x1 - x0) ≤ (y1 - y0) / (x1 - x0) * (r - x0) :=
      mul_le_mul_of_nonpos_left (by linarith) hsle
    rw [hs] at hB
    rw [min_eq_right hle, max_eq_left hle]
    unfold segEval
    constructor <;> linarith

theorem segEval_mono (x0 y0 x1 y1 r1 r2 : ℚ) (hx : x0 < x1) (h12 : r1 ≤ r2) :
    (y0 ≤ y1 → segEval x0 y0 x1 y1 r1 ≤ segEval x0 y0 x1 y1 r2) ∧
    (y1 ≤ y0 → segEval x0 y0 x1 y1 r2 ≤ segEval x0 y0 x1 y1 r1) := by
  have hd : (0:ℚ) < x1 - x0 := sub_pos.mpr hx
  constructor
  · intro hle
    have hsge : 0 ≤ (y1 - y0) / (x1 - x0) := div_nonneg (by linarith) hd.le
    have h := mul_le_mul_of_nonneg_left (show r1 - x0 ≤ r2 - x0 by linarith) hsge
    unfold segEval
    linarith
  · intro hle
    have hsle : (y1 - y0) / (x1 - x0) ≤ 0 :=
      div_nonpos_iff.mpr (Or.inr ⟨by linarith, hd.le⟩)
    have h := mul_le_mul_of_nonpos_left (show r1 - x0 ≤ r2 - x0 by linarith) hsle
    unfold segEval
    linarith

/-- **C7.** For every query flow strictly inside a bracket of two
consecutive samples, `estimate` stays between the two bracketing values,
and it is monotonic in the query flow within the bracket (direction given
by the bracketing values). -/
theorem estimate_bracket_bounds_mono (pts l1 l2 : List (ℚ × ℚ)) (a b : ℚ × ℚ)
    (q q1 q2 : ℚ) (hdec : pts = l1 ++ a :: b :: l2) (hinc : FlowsInc pts)
    (hqa : a.1 < q) (hqb : q < b.1) (hq1a : a.1 < q1) (hq1b : q1 < b.1)
    (hq2a : a.1 < q2) (hq2b : q2 < b.1) (h12 : q1 ≤ q2) :
    (min a.2 b.2 ≤ estimate pts q ∧ estimate pts q ≤ max a.2 b.2) ∧
    (a.2 ≤ b.2 → estimate pts q1 ≤ estimate pts q2) ∧
    (b.2 ≤ a.2 → estimate pts q2 ≤ estimate pts q1) := by
  subst hdec
  have hab : a.1 < b.1 := hqa.trans hqb
  have he : ∀ r, a.1 < r → r < b.1 →
      estimate (l1 ++ a :: b :: l2) r = segEval a.1 a.2 b.1 b.2 r := fun r hr1 hr2 => by
    rw [estimate_eq_masterEval hinc]
    exact masterEval_bracket l1 l2 a b r hinc hr1 hr2
  rw [he q hqa hqb, he q1 hq1a hq1b, he q2 hq2a hq2b]
  exact ⟨segEval_bounds a.1 a.2 b.1 b.2 q hab hqa.le hqb.le,
         segEval_mono a.1 a.2 b.1 b.2 q1 q2 hab h12⟩

/-- C7 witness: inside the bracket `(80,960)-(160,890)` of the head curve,
the value at 120 lies between 890 and 960 and the evaluator is decreasing
from 120 to 130. -/
theorem estimate_bracket_example :
    (min (960:ℚ) 890 ≤
        estimate ([(40, 970), (80, 960), (160, 890), (200, 840), (280, 620)] :
          List (ℚ × ℚ)) 120 ∧
      estimate ([(40, 970), (80, 960), (160, 890), (200, 840), (280, 620)] :
          List (ℚ × ℚ)) 120 ≤ max (960:ℚ) 890) ∧
    ((960:ℚ) ≤ 890 →
      estimate ([(40, 970), (80, 960), (160, 890), (200, 840), (280, 620)] :
          List (ℚ × ℚ)) 120 ≤
        estimate ([(40, 970), (80, 960), (160, 890), (200, 840), (280, 620)] :
          List (ℚ × ℚ)) 130) ∧
    ((890:ℚ) ≤ 960 →
      estimate ([(40, 970), (80, 960), (160, 890), (200, 840), (280, 620)] :
          List (ℚ × ℚ)) 130 ≤
        estimate ([(40, 970), (80, 960), (160, 890), (200, 840), (280, 620)] :
          List (ℚ × ℚ)) 120) :=
  estimate_bracket_bounds_mono
    ([(40, 970), (80, 960), (160, 890), (200, 840), (280, 620)] : List (ℚ × ℚ))
    ([(40, 970)] : List (ℚ × ℚ)) ([(200, 840), (280, 620)] : List (ℚ × ℚ))
    (80, 960) (160, 890) 120 120 130 rfl
    (by norm_num [FlowsInc, List.pairwise_cons]) (by norm_num) (by norm_num)
    (by norm_num) (by norm_num) (by norm_num) (by norm_num) (by norm_num)

/-- **C8.** On the same sample point set (at least two points, strictly
increasing flows), for every query strictly between the minimum and maximum
sample flows the three evaluators — `build_interp` in `master.py`,
`build_interp` in `final.py` and `interpolate` in `veremos.py` — return the
same value. -/
theorem evaluators_agree_inside (pts rest : List (ℚ × ℚ)) (p0 p1 : ℚ × ℚ) (q : ℚ)
    (h1 : pts = p0 :: p1 :: rest) (hinc : FlowsInc pts) (hlo : p0.1 < q)
    (hhi : q < (pts.getD (pts.length - 1) (0, 0)).1) :
    estimate pts q = finalEstimate pts q ∧ interpolate pts q = finalEstimate pts q := by
  have e0 : pts.getD 0 (0, 0) = p0 := by rw [h1]; rfl
  have hfe := finalEstimate_eq_npInterp hinc q
  have hg1 : ¬ q ≤ (pts.getD 0 (0, 0)).1 := by rw [e0]; exact not_le.mpr hlo
  have hg2 : ¬ (pts.getD (pts.length - 1) (0, 0)).1 ≤ q := not_le.mpr hhi
  constructor
  · rw [estimate_eq_masterEval hinc, hfe]
    simp only [masterEval]
    rw [if_neg hg1, if_neg hg2]
  · rw [hfe, interpolate]
    rw [if_neg (by rw [e0]; exact not_lt.mpr hlo.le), if_neg (not_lt.mpr hhi.le)]

/-- C8 witness: at query flow 120 (strictly inside the range 40-280) the
three evaluators agree on the curve points `(40,970) … (280,620)`. -/
theorem evaluators_agree_example :
    estimate ([(40, 970), (80, 960), (160, 890), (200, 840), (280, 620)] : List (ℚ × ℚ))
        120 =
      finalEstimate
        ([(40, 970), (80, 960), (160, 890), (200, 840), (280, 620)] : List (ℚ × ℚ)) 120 ∧
    interpolate ([(40, 970), (80, 960), (160, 890), (200, 840), (280, 620)] :
        List (ℚ × ℚ)) 120 =
      finalEstimate
        ([(40, 970), (80, 960), (160, 890), (200, 840), (280, 620)] : List (ℚ × ℚ)) 120 :=
  evaluators_agree_inside
    ([(40, 970), (80, 960), (160, 890), (200, 840), (280, 620)] : List (ℚ × ℚ))
    ([(160, 890), (200, 840), (280, 620)] : List (ℚ × ℚ)) (40, 970) (80, 960) 120 rfl
    (by norm_num [FlowsInc, List.pairwise_cons]) (by norm_num) (by norm_num [List.getD])

/-! ## ArrangementSearch (src/code/master.py, section 4) -/

/-- Digitised Goulds 3600 head curve of `src/code/master.py` (lines 50-56);
the file stores each head value as the plotted value minus 400. -/
def head_points : List (ℚ × ℚ) :=
  [(40, 970 - 400), (80, 960 - 400), (160, 890 - 400), (200, 840 - 400), (280, 620 - 400)]

/-- Efficiency curve points (master.py lines 58-64). -/
def eff_points : List (ℚ × ℚ) := [(40, 33), (80, 56), (160, 81), (220, 85), (280, 79)]

/-- Power curve points (master.py lines 66-73). -/
def power_points : List (ℚ × ℚ) :=
  [(40, 1200), (80, 1400), (160, 1750), (200, 1950), (260, 2150), (280, 3400)]

/-- `head_interp, qmin_h, qmax_h = build_interp(head_points)` (line 111);
only the evaluator is needed here. -/
def head_interp (q : ℚ) : ℚ := estimate head_points q

def eff_interp (q : ℚ) : ℚ := estimate eff_points q

def power_interp (q : ℚ) : ℚ := estimate power_points q

/-- One row of the `candidatos` table (master.py lines 165-174). -/
structure Candidate where
  N_par : ℕ
  Q_bomba_Ls : ℚ
  H_bomba_m : ℚ
  eta_pct : ℚ
  P_bomba_kW : ℚ
  N_est : ℤ
  H_total_disp_m : ℚ
  P_total_kW : ℚ
deriving DecidableEq, Inhabited

/-- Body of the `for N_par in range(1, 10)` loop (master.py lines 152-174):
per-pump flow `Q_total / N_par`, curve evaluations with extrapolation
accepted, `N_st = math.ceil(H_total / Hb)`, `H_disponible = N_st * Hb`,
`P_total = N_par * N_st * Pb`.  The result is `none` exactly when the
per-pump head `Hb` is zero, modelling the `ZeroDivisionError` Python
raises in `math.ceil(H_total / Hb)`. -/
def mkCandidate (QtotLs Htot : ℚ) (Npar : ℕ) : Option Candidate :=
  let Qb := QtotLs / (Npar : ℚ)
  let Hb := head_interp Qb
  let etab := eff_interp Qb
  let Pb := power_interp Qb
  if Hb = 0 then none
  else
    let Nst : ℤ := ⌈Htot / Hb⌉
    some (Candidate.mk Npar Qb Hb etab Pb Nst ((Nst : ℚ) * Hb) ((Npar : ℚ) * (Nst : ℚ) * Pb))

/-- The candidate-collecting loop: append in enumeration order, abort (with
the modelled exception) as soon as one iteration fails. -/
def buildCandidatos (QtotLs Htot : ℚ) : List ℕ → Option (List Candidate)
  | [] => some []
  | n :: ns =>
    match mkCandidate QtotLs Htot n, buildCandidatos QtotLs Htot ns with
    | some c, some cs => some (c :: cs)
    | _, _ => none

/-- `candidatos` after the loop over `range(1, 10)` (master.py line 152). -/
def candidatos (QtotLs Htot : ℚ) : Option (List Candidate) :=
  buildCandidatos QtotLs Htot (List.range' 1 9)

/-- `if not candidatos: raise RuntimeError(...)` (master.py lines 176-177):
`true` exactly when the loop completed and the collected list is empty. -/
def raisesNoFeasible (QtotLs Htot : ℚ) : Bool :=
  match candidatos QtotLs Htot with
  | some l => l.isEmpty
  | none => false

/-- Ranking key of `df_candidatos.sort_values("P_total_kW")` (line 180). -/
def powerLe (a b : Candidate) : Prop := a.P_total_kW ≤ b.P_total_kW

instance : DecidableRel powerLe :=
  fun a b => inferInstanceAs (Decidable (a.P_total_kW ≤ b.P_total_kW))

/-- `df_candidatos.sort_values("P_total_kW")`: pandas delegates to numpy's
argsort, whose introsort runs plain insertion sort on arrays shorter than
16 elements — the candidate table always has 9 rows — and that insertion
sort is stable, so the stable `List.insertionSort` models it. -/
def sortCandidates (l : List Candidate) : List Candidate := List.insertionSort powerLe l

/-- The ranked candidate table (`df_candidatos` after sorting); `mejor`,
the selected arrangement, is its first row. -/
def arrangementSearch (QtotLs Htot : ℚ) : Option (List Candidate) :=
  (candidatos QtotLs Htot).map sortCandidates

/-! ### Helper lemmas for the enumeration -/

theorem mkCandidate_some (QtotLs Htot : ℚ) (n : ℕ) (c : Candidate)
    (hc : mkCandidate QtotLs Htot n = some c) :
    c.H_bomba_m = head_interp (QtotLs / (n : ℚ)) ∧ c.H_bomba_m ≠ 0 ∧
    c.N_est = ⌈Htot / c.H_bomba_m⌉ ∧
    c.H_total_disp_m = (c.N_est : ℚ) * c.H_bomba_m ∧ c.N_par = n := by
  simp only [mkCandidate] at hc
  by_cases h : head_interp (QtotLs / (n : ℚ)) = 0
  · rw [if_pos h] at hc
    exact absurd hc (by simp)
  · rw [if_neg h] at hc
    obtain rfl := Option.some.inj hc
    exact ⟨rfl, h, rfl, rfl, rfl⟩

theorem buildCandidatos_length (QtotLs Htot : ℚ) :
    ∀ (ns : List ℕ) (l : List Candidate),
      buildCandidatos QtotLs Htot ns = some l → l.length = ns.length := by
  intro ns
  induction ns with
  | nil =>
    intro l h
    simp only [buildCandidatos] at h
    obtain rfl := Option.some.inj h
    rfl
  | cons n ns ih =>
    intro l h
    simp only [buildCandidatos] at h
    cases hmk : mkCandidate QtotLs Htot n with
    | none => rw [hmk] at h; simp at h
    | some c =>
      cases hrec : buildCandidatos QtotLs Htot ns with
      | none => rw [hmk, hrec] at h; simp at h
      | some cs =>
        rw [hmk, hrec] at h
        simp only at h
        obtain rfl := Option.some.inj h
        simp [ih cs hrec]

theorem buildCandidatos_map_npar (QtotLs Htot : ℚ) :
    ∀ (ns : List ℕ) (l : List Candidate),
      buildCandidatos QtotLs Htot ns = some l →
      l.map (fun c => c.N_par) = ns := by
  intro ns
  induction ns with
  | nil =>
    intro l h
    simp only [buildCandidatos] at h
    obtain rfl := Option.some.inj h
    rfl
  | cons n ns ih =>
    intro l h
    simp only [buildCandidatos] at h
    cases hmk : mkCandidate QtotLs Htot n with
    | none => rw [hmk] at h; simp at h
    | some c =>
      cases hrec : buildCandidatos QtotLs Htot ns with
      | none => rw [hmk, hrec] at h; simp at h
      | some cs =>
        rw [hmk, hrec] at h
        simp only at h
        obtain rfl := Option.some.inj h
        have hnp := (mkCandidate_some QtotLs Htot n c hmk).2.2.2.2
        simp [hnp, ih cs hrec]

theorem buildCandidatos_isSome (QtotLs Htot : ℚ) :
    ∀ ns : List ℕ, (∀ n ∈ ns, head_interp (QtotLs / (n : ℚ)) ≠ 0) →
      (buildCandidatos QtotLs Htot ns).isSome = true := by
  intro ns
  induction ns with
  | nil => intro _; rfl
  | cons n ns ih =>
    intro h
    have hn := h n (by simp)
    have hns := ih (fun m hm => h m (by simp [hm]))
    obtain ⟨l, hl⟩ := Option.isSome_iff_exists.mp hns
    simp only [buildCandidatos, mkCandidate]
    rw [if_neg hn, hl]
    rfl

theorem sortPts_head_points :
    sortPts head_points = [(40, 570), (80, 560), (160, 490), (200, 440), (280, 220)] := by
  norm_num [sortPts, head_points, List.insertionSort, List.orderedInsert]

theorem sortPts_eff_points :
    sortPts eff_points = [(40, 33), (80, 56), (160, 81), (220, 85), (280, 79)] := by
  norm_num [sortPts, eff_points, List.insertionSort, List.orderedInsert]

theorem sortPts_power_points :
    sortPts power_points =
      [(40, 1200), (80, 1400), (160, 1750), (200, 1950), (260, 2150), (280, 3400)] := by
  norm_num [sortPts, power_points, List.insertionSort, List.orderedInsert]

/-- **C1 (amended).** Every candidate produced by the enumeration whose
(possibly extrapolated) per-pump head is positive satisfies the coverage
invariant `stations * per-pump head ≥ target head`, because
`N_st = ⌈H_total / Hb⌉`.  The unamended claim fails when the extrapolated
head is negative (see the counterexample). -/
theorem candidate_coverage (QtotLs Htot : ℚ) (n : ℕ) (c : Candidate)
    (hn : n ∈ List.range' 1 9) (hc : mkCandidate QtotLs Htot n = some c)
    (hpos : 0 < c.H_bomba_m) :
    c.H_total_disp_m = (c.N_est : ℚ) * c.H_bomba_m ∧
    Htot ≤ (c.N_est : ℚ) * c.H_bomba_m := by
  obtain ⟨hH, hne, hNst, hdisp, hNpar⟩ := mkCandidate_some QtotLs Htot n c hc
  refine ⟨hdisp, ?_⟩
  rw [hNst]
  have h := Int.le_ceil (Htot / c.H_bomba_m)
  calc Htot = Htot / c.H_bomba_m * c.H_bomba_m := (div_mul_cancel₀ _ hpos.ne').symm
    _ ≤ (⌈Htot / c.H_bomba_m⌉ : ℚ) * c.H_bomba_m := mul_le_mul_of_nonneg_right h hpos.le

theorem head_interp_at_160 : head_interp ((160 : ℚ) / ((1 : ℕ) : ℚ)) = 490 := by
  rw [head_interp, estimate, sortPts_head_points]
  norm_num [masterEval, npInterp, segEval, List.getD]

theorem eff_interp_at_160 : eff_interp ((160 : ℚ) / ((1 : ℕ) : ℚ)) = 81 := by
  rw [eff_interp, estimate, sortPts_eff_points]
  norm_num [masterEval, npInterp, segEval, List.getD]

theorem power_interp_at_160 : power_interp ((160 : ℚ) / ((1 : ℕ) : ℚ)) = 1750 := by
  rw [power_interp, estimate, sortPts_power_points]
  norm_num [masterEval, npInterp, segEval, List.getD]

theorem mkCandidate_at_160 : mkCandidate 160 2400 1 =
    some (Candidate.mk 1 160 490 81 1750 5 2450 8750) := by
  have hceil : ⌈(2400 : ℚ) / 490⌉ = 5 := by
    rw [Int.ceil_eq_iff]
    norm_num
  simp only [mkCandidate, head_interp_at_160, eff_interp_at_160, power_interp_at_160]
  rw [if_neg (by norm_num), hceil]
  norm_num

/-- C1 witness: at total flow 160 L/s, target head 2400 m, the `N_par = 1`
candidate has per-pump head 490 > 0, 5 stations, and 5 * 490 = 2450 ≥ 2400. -/
theorem candidate_coverage_example :
    (Candidate.mk 1 160 490 81 1750 5 2450 8750).H_total_disp_m =
      (((Candidate.mk 1 160 490 81 1750 5 2450 8750).N_est : ℤ) : ℚ) *
        (Candidate.mk 1 160 490 81 1750 5 2450 8750).H_bomba_m ∧
    (2400 : ℚ) ≤ (((Candidate.mk 1 160 490 81 1750 5 2450 8750).N_est : ℤ) : ℚ) *
        (Candidate.mk 1 160 490 81 1750 5 2450 8750).H_bomba_m :=
  candidate_coverage 160 2400 1 (Candidate.mk 1 160 490 81 1750 5 2450 8750)
    (by decide) mkCandidate_at_160 (by norm_num)

theorem head_interp_at_400 : head_interp ((400 : ℚ) / ((1 : ℕ) : ℚ)) = -110 := by
  rw [head_interp, estimate, sortPts_head_points]
  norm_num [masterEval, npInterp, segEval, List.getD]

theorem eff_interp_at_400 : eff_interp ((400 : ℚ) / ((1 : ℕ) : ℚ)) = 67 := by
  rw [eff_interp, estimate, sortPts_eff_points]
  norm_num [masterEval, npInterp, segEval, List.getD]

theorem power_interp_at_400 : power_interp ((400 : ℚ) / ((1 : ℕ) : ℚ)) = 10900 := by
  rw [power_interp, estimate, sortPts_power_points]
  norm_num [masterEval, npInterp, segEval, List.getD]

/-- **C1 counterexample.** At input (total flow 400 L/s, target head
2450 m) the enumeration produces, for `N_par = 1`, a candidate with
extrapolated per-pump head −110, `N_st = ⌈2450 / (−110)⌉ = −22` and
`N_st * Hb = 2420 < 2450`: a produced candidate violates
`stations * per-pump head ≥ target head`. -/
theorem candidate_coverage_cex :
    (1 ∈ List.range' 1 9) ∧
    mkCandidate 400 2450 1 =
      some (Candidate.mk 1 400 (-110) 67 10900 (-22) 2420 (-239800)) ∧
    (Candidate.mk 1 400 (-110) 67 10900 (-22) 2420 (-239800)).H_total_disp_m < 2450 := by
  refine ⟨by decide, ?_, by norm_num⟩
  have hceil : ⌈(2450 : ℚ) / (-110)⌉ = -22 := by
    rw [Int.ceil_eq_iff]
    norm_num
  simp only [mkCandidate, head_interp_at_400, eff_interp_at_400, power_interp_at_400]
  rw [if_neg (by norm_num), hceil]
  norm_num

/-- **C10 (amended).** Whenever all nine per-pump head estimates are
nonzero, the enumeration completes with exactly 9 candidates (no candidate
is filtered), so the candidate list is nonempty and the
no-feasible-arrangement branch cannot fire.  (Unamended — "for every
input" — the claim fails: a per-pump head of exactly zero aborts the loop
with a `ZeroDivisionError`; see the counterexample.) -/
theorem enumeration_always_nine (QtotLs Htot : ℚ)
    (h : ∀ n ∈ List.range' 1 9, head_interp (QtotLs / (n : ℚ)) ≠ 0) :
    (candidatos QtotLs Htot).isSome = true ∧
    (candidatos QtotLs Htot).all (fun l => l.length == 9) = true ∧
    raisesNoFeasible QtotLs Htot = false := by
  have hs := buildCandidatos_isSome QtotLs Htot (List.range' 1 9) h
  obtain ⟨l, hl⟩ := Option.isSome_iff_exists.mp hs
  have hlen : l.length = 9 := by
    simpa using buildCandidatos_length QtotLs Htot (List.range' 1 9) l hl
  have hc : candidatos QtotLs Htot = some l := hl
  refine ⟨by rw [hc]; rfl, by rw [hc]; simp [hlen], ?_⟩
  simp only [raisesNoFeasible, hc]
  cases l with
  | nil => simp at hlen
  | cons c cs => rfl

/-- C10 witness: at the design point (total flow 800 L/s, target head
2400 m) all nine per-pump heads are nonzero, so the table has exactly nine
rows and the error branch does not fire. -/
theorem enumeration_always_nine_example :
    (candidatos 800 2400).isSome = true ∧
    (candidatos 800 2400).all (fun l => l.length == 9) = true ∧
    raisesNoFeasible 800 2400 = false :=
  enumeration_always_nine 800 2400 (by
    intro n hn
    fin_cases hn <;>
      · rw [head_interp, estimate, sortPts_head_points]
        norm_num [masterEval, npInterp, segEval, List.getD])

theorem head_interp_at_360 : head_interp ((360 : ℚ) / ((1 : ℕ) : ℚ)) = 0 := by
  rw [head_interp, estimate, sortPts_head_points]
  norm_num [masterEval, npInterp, segEval, List.getD]

theorem mkCandidate_at_360 : mkCandidate 360 2400 1 = none := by
  simp only [mkCandidate, head_interp_at_360]
  simp

theorem candidatos_at_360 : candidatos 360 2400 = none := by
  have h9 : List.range' 1 9 = 1 :: List.range' 2 8 := rfl
  rw [candidatos, h9]
  simp [buildCandidatos, mkCandidate_at_360]

/-- **C10 counterexample.** At total flow 360 L/s the `N_par = 1` per-pump
head is exactly 0 (last-segment extrapolation: `220 − 2.75·(360 − 280)`),
so `math.ceil(H_total / Hb)` raises `ZeroDivisionError`: the enumeration
appends no 9 candidates and no candidate list is produced at all. -/
theorem nine_candidates_cex :
    head_interp ((360 : ℚ) / ((1 : ℕ) : ℚ)) = 0 ∧
    mkCandidate 360 2400 1 = none ∧ candidatos 360 2400 = none :=
  ⟨head_interp_at_360, mkCandidate_at_360, candidatos_at_360⟩

/-- **C5 (amended).** The `RuntimeError` branch fires exactly on an empty
candidate list, but the list can never be empty: the search range `1..9` is
fixed and nonempty, and whenever the loop completes it holds exactly nine
candidates — also for non-positive total flow.  When the loop does not
complete (zero per-pump head) Python raises `ZeroDivisionError` instead, so
`raisesNoFeasible` is false for every input. -/
theorem noFeasible_never_raised (QtotLs Htot : ℚ) :
    raisesNoFeasible QtotLs Htot = false ∧
    (candidatos QtotLs Htot).all (fun l => l.length == 9) = true := by
  cases hc : candidatos QtotLs Htot with
  | none => simp [raisesNoFeasible, hc]
  | some l =>
    have hc' : buildCandidatos QtotLs Htot (List.range' 1 9) = some l := hc
    have hlen : l.length = 9 := by
      simpa using buildCandidatos_length QtotLs Htot (List.range' 1 9) l hc'
    constructor
    · simp only [raisesNoFeasible, hc]
      cases l with
      | nil => simp at hlen
      | cons c cs => rfl
    · simp [hlen]

/-- **C5 counterexample.** Non-positive total flow does not make the
enumeration produce zero candidates: at total flow 0 the loop completes
with nine candidates and no error.  And when no candidate list is produced
(total flow 360 L/s, zero per-pump head) the failure is not the
no-feasible-arrangement error. -/
theorem noFeasible_cex :
    (candidatos 0 2400).isSome = true ∧
    (candidatos 0 2400).all (fun l => l.length == 9) = true ∧
    candidatos 360 2400 = none ∧ raisesNoFeasible 360 2400 = false := by
  have h0 : (buildCandidatos 0 2400 (List.range' 1 9)).isSome = true := by
    apply buildCandidatos_isSome
    intro n hn
    fin_cases hn <;>
      · rw [head_interp, estimate, sortPts_head_points]
        norm_num [masterEval, npInterp, segEval, List.getD]
  obtain ⟨l, hl⟩ := Option.isSome_iff_exists.mp h0
  have hc : candidatos 0 2400 = some l := hl
  have hlen : l.length = 9 := by
    simpa using buildCandidatos_length 0 2400 (List.range' 1 9) l hl
  refine ⟨by rw [hc]; rfl, by rw [hc]; simp [hlen], candidatos_at_360, ?_⟩
  simp [raisesNoFeasible, candidatos_at_360]

/-- Tie-break order of the ranked table: strictly smaller total power, or
equal total power and smaller parallel-pump count (the enumeration
order). -/
def powerNparLt (a b : Candidate) : Prop :=
  a.P_total_kW < b.P_total_kW ∨ (a.P_total_kW = b.P_total_kW ∧ a.N_par < b.N_par)

theorem orderedInsert_stable (x : Candidate) :
    ∀ m : List Candidate, m.Pairwise powerNparLt → (∀ y ∈ m, x.N_par < y.N_par) →
      (List.orderedInsert powerLe x m).Pairwise powerNparLt := by
  intro m
  induction m with
  | nil =>
    intro _ _
    simp [List.orderedInsert]
  | cons y m ih =>
    intro hp hN
    rw [List.orderedInsert]
    by_cases hxy : powerLe x y
    · rw [if_pos hxy]
      refine List.pairwise_cons.mpr ⟨?_, hp⟩
      intro z hz
      have hxyP : x.P_total_kW ≤ y.P_total_kW := hxy
      rcases List.mem_cons.mp hz with rfl | hzm
      · rcases lt_or_eq_of_le hxyP with h | h
        · exact Or.inl h
        · exact Or.inr ⟨h, hN z (by simp)⟩
      · have hyz : powerNparLt y z := (List.pairwise_cons.mp hp).1 z hzm
        have hyzP : y.P_total_kW ≤ z.P_total_kW := by
          rcases hyz with h | ⟨h, _⟩
          · exact h.le
          · exact h.le
        rcases lt_or_eq_of_le (le_trans hxyP hyzP) with h | h
        · exact Or.inl h
        · exact Or.inr ⟨h, hN z (List.mem_cons_of_mem y hzm)⟩
    · rw [if_neg hxy]
      have hyxP : y.P_total_kW < x.P_total_kW := not_le.mp hxy
      refine List.pairwise_cons.mpr
        ⟨?_, ih (List.pairwise_cons.mp hp).2 (fun z hz => hN z (List.mem_cons_of_mem y hz))⟩
      intro z hz
      rcases (List.mem_orderedInsert powerLe).mp hz with rfl | hzm
      · exact Or.inl hyxP
      · exact (List.pairwise_cons.mp hp).1 z hzm

theorem insertionSort_stable_pairs :
    ∀ l : List Candidate, l.Pairwise (fun a b => a.N_par < b.N_par) →
      (List.insertionSort powerLe l).Pairwise powerNparLt := by
  intro l
  induction l with
  | nil =>
    intro _
    simp [List.insertionSort]
  | cons x l ih =>
    intro hp
    rw [List.insertionSort]
    refine orderedInsert_stable x (List.insertionSort powerLe l)
      (ih (List.pairwise_cons.mp hp).2) ?_
    intro y hy
    have hyl : y ∈ l := ((List.perm_insertionSort powerLe l).mem_iff).mp hy
    exact (List.pairwise_cons.mp hp).1 y hyl

theorem candidatos_npar_pairwise (QtotLs Htot : ℚ) (l : List Candidate)
    (hl : candidatos QtotLs Htot = some l) :
    l.Pairwise (fun a b => a.N_par < b.N_par) := by
  have hmap := buildCandidatos_map_npar QtotLs Htot (List.range' 1 9) l hl
  have hr : (List.range' 1 9).Pairwise (fun a b : ℕ => a < b) := by decide
  rw [← hmap] at hr
  exact (List.pairwise_map).mp hr

/-- **C3.** The ranked candidate table is sorted ascending by total
installed power; consecutive entries are related by strictly-smaller
power or by equal power with the earlier-enumerated (smaller) `N_par`
first (stability of the 9-row sort), and the first row's total power is a
lower bound for every row. -/
theorem arrangementSearch_sorted (QtotLs Htot : ℚ) :
    ((arrangementSearch QtotLs Htot).getD []).Pairwise powerNparLt ∧
    (((arrangementSearch QtotLs Htot).getD []).all fun c =>
      decide (((arrangementSearch QtotLs Htot).getD []).headI.P_total_kW ≤
        c.P_total_kW)) = true := by
  cases hc : candidatos QtotLs Htot with
  | none => simp [arrangementSearch, hc]
  | some l =>
    have hsorted : (sortCandidates l).Pairwise powerNparLt :=
      insertionSort_stable_pairs l (candidatos_npar_pairwise QtotLs Htot l hc)
    have harr : (arrangementSearch QtotLs Htot).getD [] = sortCandidates l := by
      simp [arrangementSearch, hc]
    rw [harr]
    refine ⟨hsorted, ?_⟩
    rw [List.all_eq_true]
    intro c hcmem
    rw [decide_eq_true_eq]
    cases hsc : sortCandidates l with
    | nil => rw [hsc] at hcmem; simp at hcmem
    | cons h t =>
      rw [hsc] at hcmem hsorted
      rcases List.mem_cons.mp hcmem with rfl | hct
      · exact le_refl _
      · have hrel := (List.pairwise_cons.mp hsorted).1 c hct
        rcases hrel with hlt | ⟨heq, _⟩
        · exact le_of_lt hlt
        · exact le_of_eq heq

/-! ## Wall-thickness utilisation (src/code/estanques.py, lines 10-91) -/

namespace Estanques

def rho : ℚ := 1000

/-- `g = 9.81`. -/
def g : ℚ := 981 / 100

/-- Outer pipe diameter, `D = 0.80` m. -/
def D : ℚ := 80 / 100

/-- Yield strength API 5L X65, `Sy = 448` MPa. -/
def Sy_MPa : ℚ := 448

/-- ASME design factor `F1 = 0.72`. -/
def F1 : ℚ := 72 / 100

/-- `sigma_allow = F1 * Sy_MPa * 1e6` Pa. -/
def sigma_allow : ℚ := F1 * Sy_MPa * 1000000

/-- Internal pressure `P_pa = rho * g * H_d` of a segment designed for head
`H_d` (line 62). -/
def P_pa (H_d : ℚ) : ℚ := rho * g * H_d

/-- Required thickness `e_req_mm = (P_pa * D) / (2 * sigma_allow) * 1000`
(lines 66-67). -/
def e_req_mm (H_d : ℚ) : ℚ := P_pa H_d * D / (2 * sigma_allow) * 1000

/-- Hoop stress at the adopted thickness,
`Sh = (P_pa * D) / (2 * e_ad_m)` with `e_ad_m = e_ad_mm / 1000`
(lines 71-74). -/
def Sh_adopt_Pa (H_d e_ad_mm : ℚ) : ℚ := P_pa H_d * D / (2 * (e_ad_mm / 1000))

/-- `util_e = e_req_mm / e_ad_mm if e_ad_mm > 0 else None` (line 77). -/
def util_e (H_d e_ad_mm : ℚ) : Option ℚ :=
  if 0 < e_ad_mm then some (e_req_mm H_d / e_ad_mm) else none

/-- `util_hoop = Sh_adopt_Pa / sigma_allow if sigma_allow > 0 else None`
(line 78). -/
def util_hoop (H_d e_ad_mm : ℚ) : Option ℚ :=
  if 0 < sigma_allow then some (Sh_adopt_Pa H_d e_ad_mm / sigma_allow) else none

/-- The seven pipeline segments 2-3 … 8-9 as (design head, adopted
thickness in mm) pairs: station heads 930 / 840 / 656.667 m (lines 22-42)
and adopted thicknesses 32 / 50 / 70 mm (lines 45-53). -/
def tramoData : List (ℚ × ℚ) :=
  [(930, 32), (930, 32), (840, 50), (840, 50),
   (656667 / 1000, 70), (656667 / 1000, 70), (656667 / 1000, 70)]

theorem util_eq_of_pos (H_d e_ad : ℚ) (he : 0 < e_ad) :
    util_e H_d e_ad = util_hoop H_d e_ad := by
  rw [util_e, util_hoop, if_pos he, if_pos (by norm_num [sigma_allow, F1, Sy_MPa])]
  rw [Option.some.injEq, e_req_mm, Sh_adopt_Pa, P_pa, sigma_allow, F1, Sy_MPa, rho, g, D]
  have h1 : e_ad ≠ 0 := he.ne'
  field_simp
  ring

/-- **C9.** For every pipeline segment of the thickness table, the
thickness utilisation ratio equals the hoop-stress utilisation ratio:
`e_req / e_adopt = Sh(e_adopt) / sigma_allow`, both built from the same
internal pressure `P = rho*g*H`, diameter `D` and allowable stress. -/
theorem util_ratios_agree (H_d e_ad : ℚ) (htr : (H_d, e_ad) ∈ tramoData) :
    util_e H_d e_ad = util_hoop H_d e_ad ∧ util_e H_d e_ad ≠ none := by
  have he : 0 < e_ad := by
    simp only [tramoData, List.mem_cons, List.not_mem_nil, or_false] at htr
    rcases htr with h | h | h | h | h | h | h <;>
      (injection h with h1 h2; rw [h2]; norm_num)
  refine ⟨util_eq_of_pos H_d e_ad he, ?_⟩
  rw [util_e, if_pos he]
  simp

/-- C9 witness: segment 2-3 (design head 930 m, adopted thickness 32 mm):
both utilisation ratios are defined and equal. -/
theorem util_ratios_agree_example :
    util_e 930 32 = util_hoop 930 32 ∧ util_e 930 32 ≠ none :=
  util_ratios_agree 930 32 (by norm_num [tramoData])

end Estanques

end PIH
